import Mathlib

set_option autoImplicit false

/- Shallow embedding of the skill-runner core: schema.py (Skill data model,
   parse_skill, load_skill, list_skills) and core.py (gather_input,
   resolve_inputs, run). Python strings are modelled as lists of characters;
   Python dicts built by insertion are modelled as association lists that
   preserve insertion order. External collaborators (yaml.safe_load, the
   filesystem, subprocess.run, the remote text-generation call) are
   parameters of the embedded functions. -/

/-- Python strings, modelled as lists of characters. -/
abbrev Str : Type := List Char

/-- Converts a Lean string literal into the model's string type. -/
def S (s : String) : Str := s.toList

/-- The characters Python's str.strip removes (ASCII whitespace). -/
def isPySpace (c : Char) : Bool :=
  c = ' ' || c = '\t' || c = '\n' || c = '\r' || c = Char.ofNat 11 || c = Char.ofNat 12

/-- Python str.strip(): drop leading and trailing whitespace. -/
def pytrim (s : Str) : Str :=
  ((s.dropWhile isPySpace).reverse.dropWhile isPySpace).reverse

/-- Splits a string at the first occurrence of a non-empty pattern, returning
    the text before and the text after the occurrence. -/
def splitOnce (pat : Str) : Str → Option (Str × Str)
  | [] => none
  | c :: rest =>
    if pat.isPrefixOf (c :: rest) then some ([], (c :: rest).drop pat.length)
    else (splitOnce pat rest).map (fun ab => (c :: ab.1, ab.2))

/-- Python content.split(pat, 2): at most three parts, scanning left to
    right over non-overlapping occurrences. -/
def pySplit2 (pat : Str) (s : Str) : List Str :=
  match splitOnce pat s with
  | none => [s]
  | some (a, r1) =>
    match splitOnce pat r1 with
    | none => [a, r1]
    | some (b, r2) => [a, b, r2]

/-- The scanning loop of Python str.replace, structurally recursive on a
    bound that dominates the remaining length: at each position a non-empty
    pattern occurrence is replaced and skipped, otherwise one character is
    emitted. -/
def pyReplaceB (pat rep : Str) : Nat → Str → Str
  | _, [] => []
  | 0, s => s
  | n + 1, c :: rest =>
    if pat ≠ [] ∧ pat.isPrefixOf (c :: rest) then
      rep ++ pyReplaceB pat rep n ((c :: rest).drop pat.length)
    else c :: pyReplaceB pat rep n rest

/-- Python str.replace(pat, rep) for a non-empty pattern: replace every
    non-overlapping occurrence, scanning left to right. -/
def pyReplace (pat rep s : Str) : Str := pyReplaceB pat rep s.length s

/-- Association lists standing for Python dicts (insertion order preserved). -/
def alookup {β : Type} : List (Str × β) → Str → Option β
  | [], _ => none
  | (k, v) :: rest, key => if k = key then some v else alookup rest key

/-- Python dict assignment d[key] = val: update in place if the key exists,
    append otherwise. -/
def ainsert {β : Type} : List (Str × β) → Str → β → List (Str × β)
  | [], key, val => [(key, val)]
  | (k, v) :: rest, key, val =>
    if k = key then (k, val) :: rest else (k, v) :: ainsert rest key val

/-- A Python dict from input names to string values. -/
abbrev Dict : Type := List (Str × Str)

/-- The keys of a dict, in insertion order. -/
def dkeys {β : Type} (d : List (Str × β)) : List Str := d.map Prod.fst

/-- The values yaml.safe_load may return. The documents this system reads use
    string mapping keys throughout, so mappings are modelled with string
    keys. -/
inductive Yaml : Type where
  | null : Yaml
  | bool (b : Bool) : Yaml
  | int (n : Int) : Yaml
  | str (s : Str) : Yaml
  | list (items : List Yaml) : Yaml
  | map (entries : List (Str × Yaml)) : Yaml

/-- Python truthiness of a loaded YAML value. -/
def yamlTruthy : Yaml → Bool
  | .null => false
  | .bool b => b
  | .int n => n != 0
  | .str s => !s.isEmpty
  | .list items => !items.isEmpty
  | .map entries => !entries.isEmpty

/-- Decimal rendering of an integer, as Python str() produces it. -/
def intStr (n : Int) : Str := (toString n).toList

/-- The ASCII apostrophe, used by Python repr() of strings. -/
def quoteChar : Char := Char.ofNat 39

/-- The literal opening brace character. -/
def lbrace : Char := Char.ofNat 123

/-- The literal closing brace character. -/
def rbrace : Char := Char.ofNat 125

/-- Joins rendered parts with a comma-space separator. -/
def joinCommaSep (parts : List Str) : Str :=
  match parts with
  | [] => []
  | p :: rest => p ++ (rest.map (fun q => S (", ") ++ q)).flatten

mutual

/-- Python repr() of a YAML value (containers render their elements with
    repr, as Python does). -/
def pyRepr : Yaml → Str
  | .null => S ("None")
  | .bool true => S ("True")
  | .bool false => S ("False")
  | .int n => intStr n
  | .str s => quoteChar :: (s ++ [quoteChar])
  | .list items => S ("[") ++ joinCommaSep (pyReprList items) ++ S ("]")
  | .map entries => lbrace :: (joinCommaSep (pyReprEntries entries) ++ [rbrace])

/-- repr() of each element of a YAML sequence. -/
def pyReprList : List Yaml → List Str
  | [] => []
  | v :: rest => pyRepr v :: pyReprList rest

/-- repr() of each key/value entry of a YAML mapping. -/
def pyReprEntries : List (Str × Yaml) → List Str
  | [] => []
  | (k, v) :: rest =>
    (quoteChar :: (k ++ [quoteChar] ++ S (": ") ++ pyRepr v)) :: pyReprEntries rest

end

/-- Python str() of a YAML value: a string renders as itself, everything
    else as its repr. -/
def pyStr : Yaml → Str
  | .str s => s
  | v => pyRepr v

/-- Equality of Except values is decidable when both components are. -/
instance {ε α : Type} [DecidableEq ε] [DecidableEq α] : DecidableEq (Except ε α) := fun x y =>
  match x, y with
  | .ok a, .ok b =>
    if h : a = b then isTrue (by rw [h]) else isFalse (by intro hc; cases hc; exact h rfl)
  | .error a, .error b =>
    if h : a = b then isTrue (by rw [h]) else isFalse (by intro hc; cases hc; exact h rfl)
  | .ok _, .error _ => isFalse (by intro hc; cases hc)
  | .error _, .ok _ => isFalse (by intro hc; cases hc)

/-- The yaml.safe_load collaborator: parsing the YAML text syntax is an
    external library, so it enters the model as a parameter that may fail
    (YAMLError) or produce a value. -/
abbrev SafeLoad : Type := Str → Except Unit Yaml

/-- A filesystem path, as the list of its segments. -/
abbrev FPath : Type := List Str

/-- The exceptions the embedded code can raise. -/
inductive PyErr : Type where
  | yamlError : PyErr
  | attributeError : PyErr
  | validationError : PyErr
  | missingRequiredInput (name : Str) : PyErr
  | commandFailed (command : Str) (stderr : Str) : PyErr
  | notFound (name : Str) (searched : List FPath) : PyErr
deriving DecidableEq

/-- Definition of a skill input (schema.SkillInput). -/
structure SkillInput where
  command : Option Str
  description : Str
  required : Bool
deriving DecidableEq

/-- Definition of skill output format (schema.SkillOutput). -/
structure SkillOutput where
  format : Str
deriving DecidableEq

/-- A skill definition (schema.Skill); inputs keep declaration order. -/
structure Skill where
  name : Str
  description : Str
  inputs : List (Str × SkillInput)
  output : SkillOutput
  prompt : Str
deriving DecidableEq

/-- The placeholder token for a key, Python f-string braces doubled around
    the key. -/
def placeholder (key : Str) : Str := lbrace :: lbrace :: (key ++ [rbrace, rbrace])

/-- The body of Skill.render_prompt on an explicit template: one
    str.replace per dict entry, applied sequentially in insertion order. -/
def renderStr (template : Str) (inputs : Dict) : Str :=
  inputs.foldl (fun result kv => pyReplace (placeholder kv.1) kv.2 result) template

/-- Skill.render_prompt: render the prompt template with provided inputs. -/
def Skill.render_prompt (skill : Skill) (inputs : Dict) : Str :=
  renderStr skill.prompt inputs

/-- The frontmatter delimiter. -/
def delim : Str := S ("---")

/-- Lowercases a string, as pydantic does before loose bool coercion. -/
def toLowerStr (s : Str) : Str := s.map Char.toLower

/-- The strings pydantic's loose mode accepts as true. -/
def trueStrs : List Str :=
  [S ("true"), S ("t"), S ("yes"), S ("y"), S ("on"), S ("1")]

/-- The strings pydantic's loose mode accepts as false. -/
def falseStrs : List Str :=
  [S ("false"), S ("f"), S ("no"), S ("n"), S ("off"), S ("0")]

/-- pydantic loose-mode validation of a bool field. -/
def coerceBool : Yaml → Except PyErr Bool
  | .bool b => .ok b
  | .int 0 => .ok false
  | .int 1 => .ok true
  | .str s =>
    if toLowerStr s ∈ trueStrs then .ok true
    else if toLowerStr s ∈ falseStrs then .ok false
    else .error .validationError
  | _ => .error .validationError

/-- pydantic validation of a plain str field (no coercion from other types). -/
def strField (v : Yaml) : Except PyErr Str :=
  match v with
  | .str s => .ok s
  | _ => .error .validationError

/-- pydantic validation of the optional command field: absent or null gives
    None, a string passes, anything else is rejected. -/
def cmdField (o : Option Yaml) : Except PyErr (Option Str) :=
  match o with
  | none => .ok none
  | some .null => .ok none
  | some (.str s) => .ok (some s)
  | some _ => .error .validationError

/-- pydantic validation of the description field with its empty default. -/
def descField (o : Option Yaml) : Except PyErr Str :=
  match o with
  | none => .ok []
  | some (.str s) => .ok s
  | some _ => .error .validationError

/-- pydantic validation of the required field with its true default. -/
def reqField (o : Option Yaml) : Except PyErr Bool :=
  match o with
  | none => .ok true
  | some v => coerceBool v

/-- pydantic SkillInput(**fields): validate each declared field, ignore
    unknown keys, apply the documented defaults. -/
def mkSkillInput (fields : List (Str × Yaml)) : Except PyErr SkillInput :=
  (cmdField (alookup fields (S ("command")))).bind fun command =>
  (descField (alookup fields (S ("description")))).bind fun description =>
  (reqField (alookup fields (S ("required")))).map fun required =>
  SkillInput.mk command description required

/-- pydantic validation of the format field with its text default. -/
def fmtField (o : Option Yaml) : Except PyErr Str :=
  match o with
  | none => .ok (S ("text"))
  | some (.str s) => .ok s
  | some _ => .error .validationError

/-- pydantic SkillOutput(**fields). -/
def mkSkillOutput (fields : List (Str × Yaml)) : Except PyErr SkillOutput :=
  (fmtField (alookup fields (S ("format")))).map SkillOutput.mk

/-- meta.get(key, default): raises AttributeError when meta is not a
    mapping, as Python does. -/
def metaGet (meta : Yaml) (key : Str) (dflt : Yaml) : Except PyErr Yaml :=
  match meta with
  | .map entries => .ok ((alookup entries key).getD dflt)
  | _ => .error .attributeError

/-- raw.items(): raises AttributeError when raw is not a mapping. -/
def yamlItems : Yaml → Except PyErr (List (Str × Yaml))
  | .map entries => .ok entries
  | _ => .error .attributeError

/-- The conversion of one raw inputs entry: a mapping goes through the
    pydantic validator, a bare scalar becomes its str() as the description
    with the defaults for the other fields. -/
def inputEntryVal (v : Yaml) : Except PyErr SkillInput :=
  match v with
  | .map fields => mkSkillInput fields
  | w => .ok (SkillInput.mk none (pyStr w) true)

/-- The loop converting raw input entries to SkillInput objects. -/
def buildInputsGo (acc : List (Str × SkillInput)) :
    List (Str × Yaml) → Except PyErr (List (Str × SkillInput))
  | [] => .ok acc
  | (k, v) :: rest =>
    (inputEntryVal v).bind fun inp => buildInputsGo (ainsert acc k inp) rest

/-- The frontmatter/body split of parse_skill: when the content starts with
    the delimiter and splitting on the first two delimiter occurrences gives
    three parts, the stripped middle part is the frontmatter and the
    stripped tail is the body; otherwise the frontmatter is empty and the
    body is the whole content, unchanged. -/
def fmSplit (content : Str) : Str × Str :=
  if delim.isPrefixOf content then
    match pySplit2 delim content with
    | [_, f, b] => (pytrim f, pytrim b)
    | _ => ([], content)
  else ([], content)

/-- The metadata value parse_skill works from: an empty frontmatter stands
    for an empty mapping, a YAML failure propagates, and a falsy loaded
    value degrades to an empty mapping (the or-else-empty expression in the
    source). -/
def loadMeta (sl : SafeLoad) (frontmatter : Str) : Except PyErr Yaml :=
  if frontmatter.isEmpty then .ok (.map [])
  else match sl frontmatter with
    | .error _ => .error .yamlError
    | .ok v => .ok (if yamlTruthy v then v else .map [])

/-- The output conversion of parse_skill: a mapping goes through the
    pydantic validator, anything else becomes its str() when truthy and the
    default format otherwise. -/
def outputOf (rawOutput : Yaml) : Except PyErr SkillOutput :=
  match rawOutput with
  | .map fields => mkSkillOutput fields
  | v => .ok (SkillOutput.mk (if yamlTruthy v then pyStr v else S ("text")))

/-- The metadata-processing pipeline of parse_skill, in the source's
    statement order: load the frontmatter, fetch and convert inputs, fetch
    and convert output, then validate name and description (the fallback
    name standing in when the metadata declares none). -/
def parse_meta (sl : SafeLoad) (frontmatter : Str) (fallback : Str) :
    Except PyErr (Str × Str × List (Str × SkillInput) × SkillOutput) :=
  (loadMeta sl frontmatter).bind fun meta =>
  (metaGet meta (S ("inputs")) (.map [])).bind fun rawInputs =>
  (yamlItems rawInputs).bind fun inputItems =>
  (buildInputsGo [] inputItems).bind fun inputs =>
  (metaGet meta (S ("output")) (.map [])).bind fun rawOutput =>
  (outputOf rawOutput).bind fun output =>
  (metaGet meta (S ("name")) (.str fallback)).bind fun nameVal =>
  (strField nameVal).bind fun skillName =>
  (metaGet meta (S ("description")) (.str [])).bind fun descVal =>
  (strField descVal).map fun skillDesc =>
  (skillName, skillDesc, inputs, output)

/-- parse_skill(content, name): split frontmatter and body on the first two
    delimiter occurrences when the content starts with the delimiter, run
    the metadata pipeline on the frontmatter, and attach the body as the
    prompt, mirroring schema.parse_skill. -/
def parse_skill (sl : SafeLoad) (content : Str) (name : Str) : Except PyErr Skill :=
  match parse_meta sl (fmSplit content).1 name with
  | .error e => .error e
  | .ok m => .ok (Skill.mk m.1 m.2.1 m.2.2.1 m.2.2.2 (fmSplit content).2)

/-- The filesystem collaborator. -/
structure FS where
  cwd : FPath
  home : FPath
  pathExists : FPath → Bool
  readText : FPath → Str
  isDir : FPath → Bool
  iterdir : FPath → List Str

/-- The fixed skills subdirectory segments (".claude"/"skills"). -/
def skillsDirSegs : List Str := [S (".claude"), S ("skills")]

/-- The fixed skill document filename. -/
def skillMdSeg : Str := S ("SKILL.md")

/-- The ordered candidate list load_skill checks: project-local, user-global,
    each extra path's name subdirectory, then each extra path's flat name.md
    file. -/
def paths_to_check (fs : FS) (name : Str) (search_paths : List FPath) : List FPath :=
  [fs.cwd ++ skillsDirSegs ++ [name, skillMdSeg],
   fs.home ++ skillsDirSegs ++ [name, skillMdSeg]] ++
  search_paths.map (fun p => p ++ [name, skillMdSeg]) ++
  search_paths.map (fun p => p ++ [name ++ S (".md")])

/-- The lookup loop of load_skill: return the parse of the first existing
    path, raise FileNotFoundError with the whole checked list otherwise. -/
def loadGo (fs : FS) (sl : SafeLoad) (name : Str) (allPaths : List FPath) :
    List FPath → Except PyErr Skill
  | [] => .error (.notFound name allPaths)
  | p :: rest =>
    if fs.pathExists p then parse_skill sl (fs.readText p) name
    else loadGo fs sl name allPaths rest

/-- load_skill(name, search_paths). -/
def load_skill (fs : FS) (sl : SafeLoad) (name : Str)
    (search_paths : Option (List FPath)) : Except PyErr Skill :=
  let sp := search_paths.getD []
  loadGo fs sl name (paths_to_check fs name sp) (paths_to_check fs name sp)

/-- One entry of the list_skills result. -/
structure SkillSummary where
  name : Str
  description : Str
  path : FPath
  inputs : List Str
deriving DecidableEq

/-- The summary dict list_skills appends for a parsed skill. -/
def summaryOf (skill : Skill) (skillFile : FPath) : SkillSummary :=
  SkillSummary.mk skill.name skill.description skillFile (skill.inputs.map Prod.fst)

/-- The inner loop of list_skills over one base path's directory entries:
    the seen set is extended before the parse attempt, and a parse failure
    is swallowed. -/
def listGoDirs (fs : FS) (sl : SafeLoad) (base : FPath) :
    List Str → List Str → List SkillSummary → List Str × List SkillSummary
  | [], seen, acc => (seen, acc)
  | d :: rest, seen, acc =>
    if fs.isDir (base ++ [d]) then
      if fs.pathExists (base ++ [d, skillMdSeg]) ∧ d ∉ seen then
        match parse_skill sl (fs.readText (base ++ [d, skillMdSeg])) d with
        | .ok skill =>
          listGoDirs fs sl base rest (d :: seen)
            (acc ++ [summaryOf skill (base ++ [d, skillMdSeg])])
        | .error _ => listGoDirs fs sl base rest (d :: seen) acc
      else listGoDirs fs sl base rest seen acc
    else listGoDirs fs sl base rest seen acc

/-- The outer loop of list_skills over the base paths, skipping absent
    roots. -/
def listGoRoots (fs : FS) (sl : SafeLoad) :
    List FPath → List Str → List SkillSummary → List SkillSummary
  | [], _, acc => acc
  | b :: rest, seen, acc =>
    if fs.pathExists b then
      let sa := listGoDirs fs sl b (fs.iterdir b) seen acc
      listGoRoots fs sl rest sa.1 sa.2
    else listGoRoots fs sl rest seen acc

/-- The ordered roots list_skills scans. -/
def allRoots (fs : FS) (search_paths : List FPath) : List FPath :=
  [fs.cwd ++ skillsDirSegs, fs.home ++ skillsDirSegs] ++ search_paths

/-- list_skills(search_paths). -/
def list_skills (fs : FS) (sl : SafeLoad) (search_paths : Option (List FPath)) :
    List SkillSummary :=
  listGoRoots fs sl (allRoots fs (search_paths.getD [])) [] []

/-- What running one shell command returns (the subprocess collaborator's
    observable result). -/
structure CmdResult where
  returncode : Int
  stdout : Str
  stderr : Str

/-- The command-execution collaborator. -/
abbrev Gather : Type := Str → CmdResult

/-- SkillRunner.gather_input: raise only when the return code is non-zero
    and stderr is non-empty, otherwise hand back captured stdout. -/
def gather_input (g : Gather) (command : Str) : Except PyErr Str :=
  let r := g command
  if r.returncode ≠ 0 ∧ ¬r.stderr.isEmpty then .error (.commandFailed command r.stderr)
  else .ok r.stdout

/-- The truthiness test the code applies to input_def.command: a None or
    empty-string command does not count as an auto-gather command. -/
def effCommand (d : SkillInput) : Option Str :=
  match d.command with
  | some c => if c.isEmpty then none else some c
  | none => none

/-- The body of one iteration of the resolve_inputs loop for the declared
    input nd, given the dict resolved so far. -/
def resolveStep (g : Gather) (provided : Dict) (resolved : Dict)
    (nd : Str × SkillInput) : Except PyErr Dict :=
  match alookup provided nd.1 with
  | some v => .ok (ainsert resolved nd.1 v)
  | none =>
    match effCommand nd.2 with
    | some c => (gather_input g c).map (fun out => ainsert resolved nd.1 out)
    | none =>
      if nd.2.required then .error (.missingRequiredInput nd.1)
      else .ok resolved

/-- The resolve_inputs loop over the declared inputs in declaration order. -/
def resolveGo (g : Gather) (provided : Dict) :
    List (Str × SkillInput) → Dict → Except PyErr Dict
  | [], resolved => .ok resolved
  | nd :: rest, resolved => do
    let resolved' ← resolveStep g provided resolved nd
    resolveGo g provided rest resolved'

/-- SkillRunner.resolve_inputs: use provided values or auto-gather. -/
def resolve_inputs (g : Gather) (skill : Skill) (provided : Dict) :
    Except PyErr Dict :=
  resolveGo g provided skill.inputs []

/-- The provided dict that run hands to resolve_inputs after the stdin
    single-input shortcut. -/
def runEffectiveProvided (skill : Skill) (inputs : Option Dict) (stdin : Option Str) : Dict :=
  let provided := match inputs with | none => [] | some l => l
  match stdin with
  | some s =>
    if ¬s.isEmpty ∧ skill.inputs.length = 1 ∧ provided.isEmpty then
      match skill.inputs with
      | (k, _) :: _ => ainsert provided k s
      | [] => provided
    else provided
  | none => provided

/-- The remote text-generation collaborator, as the list of content
    fragments the query yields for a prompt. -/
abbrev Remote : Type := Str → List Str

/-- SkillRunner.run: load the skill, apply the stdin shortcut, resolve the
    inputs, render the prompt, and hand it to the remote collaborator whose
    joined fragments are stripped. -/
def run (fs : FS) (sl : SafeLoad) (g : Gather) (remote : Remote)
    (search_paths : List FPath) (skill_name : Str) (inputs : Option Dict)
    (stdin : Option Str) : Except PyErr Str := do
  let skill ← load_skill fs sl skill_name (some search_paths)
  let provided := runEffectiveProvided skill inputs stdin
  let resolved ← resolve_inputs g skill provided
  pure (pytrim (remote (skill.render_prompt resolved)).flatten)

/-- A reference to one of the two dicts that can play the role of provided
    inside run: the caller's dict or the fresh dict created by the
    inputs-or-empty expression. -/
inductive DictRef : Type where
  | callerRef : DictRef
  | freshRef : DictRef

/-- The two dict locations visible during one run invocation. -/
structure RunHeap where
  callerDict : Dict
  freshDict : Dict

/-- Reads the dict a reference points to. -/
def readRef (h : RunHeap) : DictRef → Dict
  | .callerRef => h.callerDict
  | .freshRef => h.freshDict

/-- Writes through a reference. -/
def writeRef (h : RunHeap) : DictRef → Dict → RunHeap
  | .callerRef, d => RunHeap.mk d h.freshDict
  | .freshRef, d => RunHeap.mk h.callerDict d

/-- provided = inputs or-else empty: a non-empty caller dict is aliased, an
    empty or absent one is replaced by a fresh empty dict. -/
def runProvidedRef (inputs : Option Dict) : DictRef × RunHeap :=
  match inputs with
  | none => (.freshRef, RunHeap.mk [] [])
  | some l => if l.isEmpty then (.freshRef, RunHeap.mk l []) else (.callerRef, RunHeap.mk l [])

/-- The heap after run's stdin shortcut block, with the single mutation site
    of run (the dict assignment inside the shortcut) written through the
    reference it aliases. resolve_inputs and render_prompt only read
    provided, so no further heap step exists. -/
def runStdinHeap (skill : Skill) (inputs : Option Dict) (stdin : Option Str) : RunHeap :=
  let rh := runProvidedRef inputs
  let provided := readRef rh.2 rh.1
  match stdin with
  | some s =>
    if ¬s.isEmpty ∧ skill.inputs.length = 1 ∧ provided.isEmpty then
      match skill.inputs with
      | (k, _) :: _ => writeRef rh.2 rh.1 (ainsert provided k s)
      | [] => rh.2
    else rh.2
  | none => rh.2

/-- The spec-side condition for the stdin single-input shortcut, written
    from the claim's words: stdin_text non-empty, provided-inputs mapping
    empty, skill declares exactly one input. -/
def stdinShortcutFires (skill : Skill) (inputs : Option Dict) (stdin : Option Str) : Bool :=
  (match stdin with | some s => !s.isEmpty | none => false) &&
  skill.inputs.length == 1 && (inputs.getD []).isEmpty

/-- A field value acceptable for a pydantic str field, or absent. -/
def strOrAbsent (o : Option Yaml) : Bool :=
  match o with
  | none => true
  | some (.str _) => true
  | some _ => false

/-- A value pydantic's loose mode can coerce to bool. -/
def boolCoercible (v : Yaml) : Bool :=
  match v with
  | .bool _ => true
  | .int n => n == 0 || n == 1
  | .str s => decide (toLowerStr s ∈ trueStrs) || decide (toLowerStr s ∈ falseStrs)
  | _ => false

/-- A field value acceptable for the command field: absent, null, or a
    string. -/
def cmdShapeOk (o : Option Yaml) : Bool :=
  match o with
  | none => true
  | some .null => true
  | some (.str _) => true
  | some _ => false

/-- A field value acceptable for the required field: absent or
    bool-coercible. -/
def reqShapeOk (o : Option Yaml) : Bool :=
  match o with
  | none => true
  | some w => boolCoercible w

/-- An inputs entry of a shape the parser accepts: any bare scalar, or a
    mapping whose command/description/required fields have the documented
    types. -/
def goodInputEntry (v : Yaml) : Bool :=
  match v with
  | .map fields =>
    cmdShapeOk (alookup fields (S ("command"))) &&
    strOrAbsent (alookup fields (S ("description"))) &&
    reqShapeOk (alookup fields (S ("required")))
  | _ => true

/-- An output entry of a shape the parser accepts. -/
def goodOutputEntry (v : Yaml) : Bool :=
  match v with
  | .map fields => strOrAbsent (alookup fields (S ("format")))
  | _ => true

/-- A metadata mapping all of whose recognized entries have the documented
    shapes. -/
def goodMetaMap (entries : List (Str × Yaml)) : Bool :=
  (match alookup entries (S ("inputs")) with
   | none => true
   | some (.map items) => items.all (fun kv => goodInputEntry kv.2)
   | some _ => false) &&
  (match alookup entries (S ("output")) with
   | none => true
   | some v => goodOutputEntry v) &&
  strOrAbsent (alookup entries (S ("name"))) &&
  strOrAbsent (alookup entries (S ("description")))

/-- The well-shapedness condition under which parsing cannot fail: the
    metadata block is absent, or the YAML collaborator returns a falsy
    value, or it returns a mapping whose entries are well shaped. -/
def metaOkB (sl : SafeLoad) (content : Str) : Bool :=
  (fmSplit content).1.isEmpty ||
  (match sl ((fmSplit content).1) with
   | .error _ => false
   | .ok v =>
     !yamlTruthy v ||
     (match v with
      | .map entries => goodMetaMap entries
      | _ => false))

/-- The subdirectory candidates of one existing base path that list_skills
    considers: directory entries that are directories and contain the fixed
    document filename, tagged with their base. -/
def dirCandidates (fs : FS) (base : FPath) : List (FPath × Str) :=
  ((fs.iterdir base).filter
    (fun d => fs.isDir (base ++ [d]) && fs.pathExists (base ++ [d, skillMdSeg]))).map
    (fun d => (base, d))

/-- All candidates of the scanned roots, in enumeration order, skipping
    absent roots. -/
def rootCandidates (fs : FS) : List FPath → List (FPath × Str)
  | [] => []
  | b :: rest =>
    (if fs.pathExists b then dirCandidates fs b else []) ++ rootCandidates fs rest

/-- The flattened form of the list_skills loop: process the candidates in
    order, dedup by subdirectory name against the seen set (extended before
    the parse attempt), swallow parse failures. -/
def candGo (fs : FS) (sl : SafeLoad) :
    List (FPath × Str) → List Str → List SkillSummary → List Str × List SkillSummary
  | [], seen, acc => (seen, acc)
  | (b, d) :: rest, seen, acc =>
    if d ∈ seen then candGo fs sl rest seen acc
    else
      match parse_skill sl (fs.readText (b ++ [d, skillMdSeg])) d with
      | .ok skill =>
        candGo fs sl rest (d :: seen) (acc ++ [summaryOf skill (b ++ [d, skillMdSeg])])
      | .error _ => candGo fs sl rest (d :: seen) acc

/-- The base of the earliest-enumerated candidate carrying a given
    subdirectory name. -/
def firstCandFor (x : Str) : List (FPath × Str) → Option FPath
  | [] => none
  | (b, d) :: rest => if d = x then some b else firstCandFor x rest

/-- The subdirectory name a summary was scanned from: the second-to-last
    segment of its source document path. -/
def sumDir (s : SkillSummary) : Str :=
  match s.path.reverse with
  | _ :: d :: _ => d
  | _ => []

/-- A concrete YAML collaborator for the closed witnesses and
    counterexamples: the scalar document renders as a string, the greet
    document as its mapping, everything else as an empty mapping (as YAML
    would). -/
def demoSafeLoad : SafeLoad := fun s =>
  if s = S ("hello") then .ok (.str (S ("hello")))
  else if s = S ("name: greet") then .ok (.map [(S ("name"), .str (S ("greet")))])
  else .ok (.map [])

/-- A skill whose prompt is a single placeholder, for the rendering
    counterexample. -/
def braceSkill : Skill :=
  Skill.mk (S ("t")) [] [] (SkillOutput.mk (S ("text"))) (placeholder (S ("a")))

/-- A command collaborator for the closed witnesses: cmd1 exits 1 with
    output and silent stderr, cmd2 exits 2 noisily, everything else
    succeeds. -/
def demoGather : Gather := fun c =>
  if c = S ("cmd1") then CmdResult.mk 1 (S ("out")) []
  else if c = S ("cmd2") then CmdResult.mk 2 [] (S ("boom"))
  else CmdResult.mk 0 (S ("ok")) []

/-- A skill declaring one required input with no auto-gather command. -/
def oneReqSkill : Skill :=
  Skill.mk (S ("w")) [] [(S ("who"), SkillInput.mk none [] true)]
    (SkillOutput.mk (S ("text"))) (placeholder (S ("who")))

/-- The project-local skills root of the concrete filesystems below. -/
def projSkillsRoot : FPath := [S ("proj"), S (".claude"), S ("skills")]

/-- The user-global skills root of the concrete filesystems below. -/
def homeSkillsRoot : FPath := [S ("home"), S (".claude"), S ("skills")]

/-- A concrete filesystem in which the subdirectory x exists under both the
    project root and the home root, the project copy holding a document
    whose metadata is a bare scalar (so its parse raises) and the home copy
    holding a plain document that parses. -/
def cexFS : FS :=
  FS.mk [S ("proj")] [S ("home")]
    (fun p => p = projSkillsRoot ∨ p = homeSkillsRoot ∨
      p = projSkillsRoot ++ [S ("x"), skillMdSeg] ∨
      p = homeSkillsRoot ++ [S ("x"), skillMdSeg])
    (fun p =>
      if p = projSkillsRoot ++ [S ("x"), skillMdSeg] then S ("---\nhello\n---\nbody")
      else if p = homeSkillsRoot ++ [S ("x"), skillMdSeg] then S ("good body")
      else [])
    (fun p => p = projSkillsRoot ++ [S ("x")] ∨ p = homeSkillsRoot ++ [S ("x")])
    (fun p => if p = projSkillsRoot ∨ p = homeSkillsRoot then [S ("x")] else [])

/-- The same filesystem with a project copy that parses cleanly. -/
def okFS : FS :=
  FS.mk [S ("proj")] [S ("home")] cexFS.pathExists
    (fun p =>
      if p = projSkillsRoot ++ [S ("x"), skillMdSeg] then S ("proj body")
      else if p = homeSkillsRoot ++ [S ("x"), skillMdSeg] then S ("home body")
      else [])
    cexFS.isDir cexFS.iterdir

/-- A concrete filesystem with no skill documents at all. -/
def emptyFS : FS :=
  FS.mk [S ("proj")] [S ("home")] (fun _ => false) (fun _ => []) (fun _ => false) (fun _ => [])

/-- A skill declaring one optional input without a command and one required
    input, for the resolution-domain witness. -/
def twoInputSkill : Skill :=
  Skill.mk (S ("w2")) []
    [(S ("a"), SkillInput.mk none [] false), (S ("b"), SkillInput.mk none [] true)]
    (SkillOutput.mk (S ("text"))) (placeholder (S ("b")))

/-- Unfolds a successful Except bind into its two successful stages. -/
theorem exbind_ok {α β : Type} {e : Except PyErr α} {f : α → Except PyErr β} {b : β}
    (h : (e >>= f) = Except.ok b) : ∃ a, e = Except.ok a ∧ f a = Except.ok b := by
  cases e with
  | error ε => simp [Bind.bind, Except.bind] at h
  | ok a => exact ⟨a, rfl, by simpa [Bind.bind, Except.bind] using h⟩

/-- A bind whose first stage errors, errors. -/
theorem exbind_error {α β : Type} {e : Except PyErr α} {f : α → Except PyErr β} {ε : PyErr}
    (h : e = Except.error ε) : (e >>= f) = Except.error ε := by
  subst h; rfl

/-- Replacing a non-empty pattern inside exactly the pattern itself yields
    exactly the replacement. -/
theorem pyReplace_self (pat rep : Str) (h : pat ≠ []) : pyReplace pat rep pat = rep := by
  cases pat with
  | nil => exact absurd rfl h
  | cons c rest =>
    have hpre : (c :: rest).isPrefixOf (c :: rest) = true := by
      simp [List.isPrefixOf_iff_prefix]
    simp [pyReplace, pyReplaceB, hpre, List.drop_length]

/-- C4 counterexample: rendering the template consisting of the a
    placeholder with a mapping whose first entry substitutes the literal b
    placeholder and whose second entry maps b to X produces X: the value
    inserted for a was re-expanded by the substitution of b, while the
    claim predicts the inserted b placeholder survives verbatim. -/
theorem render_reexpansion_counterexample :
    braceSkill.render_prompt
      [(S ("a"), placeholder (S ("b"))), (S ("b"), S ("X"))] = S ("X") ∧
    placeholder (S ("b")) ≠ S ("X") := by
  constructor
  · decide
  · decide

/-- C4, amended: rendering is one str.replace per mapping entry applied
    sequentially in insertion order (so rendering a concatenated mapping is
    rendering the first part and then the second over its output, which is
    how a substituted value can be re-expanded by a later entry), and each
    entry's value is inserted verbatim with no escaping in place of its
    placeholder. -/
theorem render_prompt_sequential_substitution (skill : Skill) (l1 l2 : Dict) :
    skill.render_prompt (l1 ++ l2) =
      renderStr (skill.render_prompt l1) l2 ∧
    ∀ k v : Str, renderStr (placeholder k) [(k, v)] = v := by
  constructor
  · unfold Skill.render_prompt renderStr
    exact List.foldl_append _ _ l1 l2
  · intro k v
    have hne : placeholder k ≠ [] := by simp [placeholder]
    simp [renderStr, pyReplace_self (placeholder k) v hne]

/-- C3: for a declared input that is absent from provided and carries an
    auto-gather command (in the code's sense: a non-None, non-empty command
    string), the resolution step fails with a Command-Failed condition if
    and only if the command's result has non-zero status and non-empty
    stderr, in which case the condition carries the command text and the
    captured stderr; in every other case the step records the command's
    captured stdout, possibly empty, as the input's value. -/
theorem resolve_auto_gather_iff (g : Gather) (provided resolved : Dict)
    (nm : Str) (d : SkillInput) (c : Str)
    (hp : alookup provided nm = none) (hc : effCommand d = some c) :
    ((∃ cmd err, resolveStep g provided resolved (nm, d) =
        Except.error (.commandFailed cmd err)) ↔
      ((g c).returncode ≠ 0 ∧ (g c).stderr ≠ [])) ∧
    (((g c).returncode ≠ 0 ∧ (g c).stderr ≠ []) →
      resolveStep g provided resolved (nm, d) =
        Except.error (.commandFailed c ((g c).stderr))) ∧
    (¬((g c).returncode ≠ 0 ∧ (g c).stderr ≠ []) →
      resolveStep g provided resolved (nm, d) =
        Except.ok (ainsert resolved nm ((g c).stdout))) := by
  have hstep : resolveStep g provided resolved (nm, d) =
      (gather_input g c).map (fun out => ainsert resolved nm out) := by
    simp [resolveStep, hp, hc]
  by_cases h0 : (g c).returncode ≠ 0 ∧ (g c).stderr ≠ []
  · have hg : gather_input g c = Except.error (.commandFailed c ((g c).stderr)) := by
      have : ((g c).returncode ≠ 0 ∧ ¬(g c).stderr.isEmpty = true) := by
        refine ⟨h0.1, ?_⟩
        simpa [List.isEmpty_iff] using h0.2
      simp [gather_input, this]
    refine ⟨⟨fun _ => h0, fun _ => ⟨c, (g c).stderr, ?_⟩⟩, fun _ => ?_, fun hn => absurd h0 hn⟩
    · rw [hstep, hg]; rfl
    · rw [hstep, hg]; rfl
  · have hg : gather_input g c = Except.ok ((g c).stdout) := by
      have hcond : ¬((g c).returncode ≠ 0 ∧ ¬(g c).stderr.isEmpty = true) := by
        intro hcontra
        exact h0 ⟨hcontra.1, by simpa [List.isEmpty_iff] using hcontra.2⟩
      show (if (g c).returncode ≠ 0 ∧ ¬(g c).stderr.isEmpty then
          Except.error (PyErr.commandFailed c ((g c).stderr))
        else Except.ok ((g c).stdout)) = Except.ok ((g c).stdout)
      rw [if_neg hcond]
    refine ⟨⟨?_, fun hcond => absurd hcond h0⟩, fun hcond => absurd hcond h0, fun _ => ?_⟩
    · rintro ⟨cmd, err, habs⟩
      rw [hstep, hg] at habs
      exact absurd habs (by simp [Except.map])
    · rw [hstep, hg]; rfl

/-- Closed witness for the C3 theorem at the silent-failure command cmd1
    (exit status 1, empty stderr): the step still records the captured
    stdout. -/
theorem resolve_auto_gather_iff_witness :
    resolveStep demoGather [] [] (S ("x"), SkillInput.mk (some (S ("cmd1"))) [] true) =
      Except.ok [(S ("x"), S ("out"))] :=
  (resolve_auto_gather_iff demoGather [] [] (S ("x"))
      (SkillInput.mk (some (S ("cmd1"))) [] true) (S ("cmd1"))
      (by decide) (by decide)).2.2 (by decide)

/-- If some declared input's resolution step errors whatever the dict
    resolved so far, the whole resolve loop errors: no partial result comes
    back. -/
theorem resolveGo_error_of_step (g : Gather) (provided : Dict)
    (l : List (Str × SkillInput)) (nd : Str × SkillInput) (resolved : Dict)
    (hmem : nd ∈ l) (hstep : ∀ r : Dict, ∃ e, resolveStep g provided r nd = Except.error e) :
    (resolveGo g provided l resolved).isOk = false := by
  induction l generalizing resolved with
  | nil => cases hmem
  | cons hd tl ih =>
    rcases List.mem_cons.mp hmem with heq | htl
    · subst heq
      obtain ⟨e, he⟩ := hstep resolved
      simp [resolveGo, he, Bind.bind, Except.bind, Except.isOk, Except.toBool]
    · cases hs : resolveStep g provided resolved hd with
      | error e =>
        simp [resolveGo, hs, Bind.bind, Except.bind, Except.isOk, Except.toBool]
      | ok r' =>
        have := ih r' htl
        simpa [resolveGo, hs, Bind.bind, Except.bind] using this

/-- C6: a declared input that is required, absent from provided, and
    without an auto-gather command makes its resolution step fail with a
    Missing-Required-Input condition naming it, and resolve_inputs on any
    skill declaring it returns an error, never a partial mapping. -/
theorem resolve_missing_required_input (g : Gather) (skill : Skill) (provided : Dict)
    (nm : Str) (d : SkillInput)
    (hmem : (nm, d) ∈ skill.inputs) (hp : alookup provided nm = none)
    (hc : effCommand d = none) (hr : d.required = true) :
    (∀ resolved : Dict, resolveStep g provided resolved (nm, d) =
        Except.error (.missingRequiredInput nm)) ∧
    (resolve_inputs g skill provided).isOk = false := by
  have hstep : ∀ resolved : Dict, resolveStep g provided resolved (nm, d) =
      Except.error (.missingRequiredInput nm) := by
    intro resolved
    simp [resolveStep, hp, hc, hr]
  refine ⟨hstep, ?_⟩
  exact resolveGo_error_of_step g provided skill.inputs (nm, d) [] hmem
    (fun r => ⟨.missingRequiredInput nm, hstep r⟩)

/-- Closed witness for the C6 theorem: resolving the one-required-input
    skill with nothing provided returns an error. -/
theorem resolve_missing_required_input_witness :
    (resolve_inputs demoGather oneReqSkill []).isOk = false :=
  (resolve_missing_required_input demoGather oneReqSkill [] (S ("who"))
    (SkillInput.mk none [] true) (by decide) (by decide) (by decide) (by decide)).2

/-- Soundness of the single split: the parts reassemble to the input with
    one pattern occurrence between them. -/
theorem splitOnce_sound (pat : Str) (s a b : Str)
    (h : splitOnce pat s = some (a, b)) : s = a ++ (pat ++ b) := by
  induction s generalizing a b with
  | nil => simp [splitOnce] at h
  | cons c rest ih =>
    by_cases hpre : pat.isPrefixOf (c :: rest) = true
    · rw [splitOnce, if_pos hpre] at h
      obtain ⟨t, ht⟩ := List.isPrefixOf_iff_prefix.mp hpre
      rw [Option.some.injEq, Prod.mk.injEq] at h
      obtain ⟨ha, hb⟩ := h
      subst ha
      subst hb
      rw [← ht, List.drop_left]
      simp
    · rw [splitOnce, if_neg hpre] at h
      cases hrec : splitOnce pat rest with
      | none => rw [hrec] at h; simp at h
      | some ab =>
        rw [hrec] at h
        simp only [Option.map_some', Option.some.injEq, Prod.mk.injEq] at h
        obtain ⟨ha, hb⟩ := h
        subst ha
        subst hb
        have := ih ab.1 ab.2 (by rw [hrec])
        simp [this]

/-- Soundness of the two-bounded split: three parts reassemble to the input
    with delimiter occurrences between them. -/
theorem pySplit2_three (pat : Str) (s a f b : Str)
    (h : pySplit2 pat s = [a, f, b]) : s = a ++ (pat ++ (f ++ (pat ++ b))) := by
  unfold pySplit2 at h
  split at h
  · simp at h
  · rename_i a1 r1 heq1
    split at h
    · simp at h
    · rename_i f2 r2 heq2
      simp only [List.cons.injEq, and_true] at h
      obtain ⟨ha, hf, hb⟩ := h
      subst ha
      subst hf
      subst hb
      have e1 := splitOnce_sound pat s a1 r1 heq1
      have e2 := splitOnce_sound pat r1 f2 r2 heq2
      rw [e1, e2]

/-- Whenever parse_skill succeeds, the resulting prompt is exactly the body
    component of the frontmatter/body split. -/
theorem parse_ok_prompt (sl : SafeLoad) (content name : Str) (sk : Skill)
    (h : parse_skill sl content name = Except.ok sk) : sk.prompt = (fmSplit content).2 := by
  unfold parse_skill at h
  split at h
  · exact Except.noConfusion h
  · injection h with h'
    rw [← h']

/-- C2 counterexample: parsing a content with no metadata block and
    leading whitespace succeeds with the whole content, untrimmed, as the
    prompt, while the claim predicts the trimmed body. -/
theorem parse_untrimmed_body_counterexample :
    (parse_skill demoSafeLoad (S (" x")) (S ("n"))).toOption.map Skill.prompt =
      some (S (" x")) ∧
    pytrim (S (" x")) ≠ S (" x") := by
  constructor
  · decide
  · decide

/-- C2, amended: on success the prompt is the trimmed text after the second
    delimiter exactly when the content starts with the delimiter and splits
    into three parts on the first two delimiter occurrences (the three
    parts genuinely decompose the content); in every other case - content
    that does not start with the delimiter, or with fewer than two
    delimiter occurrences - the prompt is the entire content verbatim, with
    no trimming applied. -/
theorem parse_skill_prompt_characterization (sl : SafeLoad) (content name : Str)
    (sk : Skill) (h : parse_skill sl content name = Except.ok sk) :
    (delim.isPrefixOf content = false → sk.prompt = content) ∧
    ((pySplit2 delim content).length ≠ 3 → sk.prompt = content) ∧
    (∀ a f b : Str, pySplit2 delim content = [a, f, b] →
      delim.isPrefixOf content = true →
      content = a ++ (delim ++ (f ++ (delim ++ b))) ∧ sk.prompt = pytrim b) := by
  have hp : sk.prompt = (fmSplit content).2 := parse_ok_prompt sl content name sk h
  by_cases hpre : delim.isPrefixOf content = true
  · refine ⟨?_, ?_, ?_⟩
    · intro hfalse
      rw [hpre] at hfalse
      exact Bool.noConfusion hfalse
    · intro hlen
      rw [hp]
      rcases hsp : pySplit2 delim content with _ | ⟨x, rest1⟩
      · simp [fmSplit, hpre, hsp]
      · rcases rest1 with _ | ⟨y, rest2⟩
        · simp [fmSplit, hpre, hsp]
        · rcases rest2 with _ | ⟨z, rest3⟩
          · simp [fmSplit, hpre, hsp]
          · rcases rest3 with _ | ⟨w, rest4⟩
            · exact absurd (by rw [hsp]; rfl) hlen
            · simp [fmSplit, hpre, hsp]
    · intro a f b hsp _
      refine ⟨pySplit2_three delim content a f b hsp, ?_⟩
      rw [hp]
      simp [fmSplit, hpre, hsp]
  · have hfm : fmSplit content = ([], content) := by
      simp [fmSplit, hpre]
    refine ⟨fun _ => by rw [hp, hfm], fun _ => by rw [hp, hfm], ?_⟩
    intro a f b hsp hpre2
    exact absurd hpre2 hpre

/-- Closed witness for the C2 theorem at a content without a metadata
    block: the prompt is the content itself. -/
theorem parse_skill_prompt_characterization_witness :
    delim.isPrefixOf (S (" x")) = false ∧
    (Skill.mk (S ("n")) [] [] (SkillOutput.mk (S ("text"))) (S (" x"))).prompt = S (" x") :=
  ⟨by decide,
    (parse_skill_prompt_characterization demoSafeLoad (S (" x")) (S ("n"))
      (Skill.mk (S ("n")) [] [] (SkillOutput.mk (S ("text"))) (S (" x")))
      (by decide)).1 (by decide)⟩

/-- A successful first stage and a successful continuation make a
    successful bind. -/
theorem exbind_isOk {α β : Type} {e : Except PyErr α} {f : α → Except PyErr β} {a : α}
    (he : e = Except.ok a) (hf : (f a).isOk = true) : (e.bind f).isOk = true := by
  subst he
  exact hf

/-- A successful computation holds some value. -/
theorem isOk_exists {α : Type} {e : Except PyErr α} (h : e.isOk = true) :
    ∃ a, e = Except.ok a := by
  cases e with
  | error ε => simp [Except.isOk, Except.toBool] at h
  | ok a => exact ⟨a, rfl⟩

/-- Mapping over a successful computation stays successful. -/
theorem exmap_isOk {α β : Type} {e : Except PyErr α} {g : α → β} {a : α}
    (he : e = Except.ok a) : (Except.map g e).isOk = true := by
  subst he
  rfl

/-- A well-shaped command field validates. -/
theorem cmdField_isOk (o : Option Yaml) (h : cmdShapeOk o = true) :
    (cmdField o).isOk = true := by
  rcases o with _ | v
  · rfl
  · cases v <;> simp_all [cmdShapeOk, cmdField, Except.isOk, Except.toBool]

/-- A well-shaped description field validates. -/
theorem descField_isOk (o : Option Yaml) (h : strOrAbsent o = true) :
    (descField o).isOk = true := by
  rcases o with _ | v
  · rfl
  · cases v <;> simp_all [strOrAbsent, descField, Except.isOk, Except.toBool]

/-- A well-shaped required field validates. -/
theorem reqField_isOk (o : Option Yaml) (h : reqShapeOk o = true) :
    (reqField o).isOk = true := by
  rcases o with _ | v
  · rfl
  · cases v with
    | bool b => rfl
    | int n =>
      simp only [reqShapeOk, boolCoercible, Bool.or_eq_true, beq_iff_eq] at h
      rcases h with h0 | h1
      · subst h0; rfl
      · subst h1; rfl
    | str s =>
      simp only [reqShapeOk, boolCoercible, Bool.or_eq_true, decide_eq_true_eq] at h
      rcases h with ht | hf
      · simp [reqField, coerceBool, ht, Except.isOk, Except.toBool]
      · by_cases ht2 : toLowerStr s ∈ trueStrs <;>
          simp [reqField, coerceBool, ht2, hf, Except.isOk, Except.toBool]
    | null => simp [reqShapeOk, boolCoercible] at h
    | list items => simp [reqShapeOk, boolCoercible] at h
    | map entries => simp [reqShapeOk, boolCoercible] at h

/-- A well-shaped format field validates. -/
theorem fmtField_isOk (o : Option Yaml) (h : strOrAbsent o = true) :
    (fmtField o).isOk = true := by
  rcases o with _ | v
  · rfl
  · cases v <;> simp_all [strOrAbsent, fmtField, Except.isOk, Except.toBool]

/-- A well-shaped inputs entry converts. -/
theorem inputEntryVal_isOk (v : Yaml) (h : goodInputEntry v = true) :
    (inputEntryVal v).isOk = true := by
  cases v with
  | map fields =>
    simp only [goodInputEntry, Bool.and_eq_true] at h
    obtain ⟨⟨hc, hd⟩, hr⟩ := h
    obtain ⟨command, hcv⟩ := isOk_exists (cmdField_isOk _ hc)
    obtain ⟨description, hdv⟩ := isOk_exists (descField_isOk _ hd)
    obtain ⟨required, hrv⟩ := isOk_exists (reqField_isOk _ hr)
    exact exbind_isOk hcv (exbind_isOk hdv (exmap_isOk hrv))
  | null => rfl
  | bool b => rfl
  | int n => rfl
  | str s => rfl
  | list items => rfl

/-- A list of well-shaped inputs entries converts, whatever has been
    accumulated so far. -/
theorem buildInputsGo_isOk (items : List (Str × Yaml))
    (h : items.all (fun kv => goodInputEntry kv.2) = true) :
    ∀ acc, (buildInputsGo acc items).isOk = true := by
  induction items with
  | nil => intro acc; rfl
  | cons kv rest ih =>
    intro acc
    simp only [List.all_cons, Bool.and_eq_true] at h
    obtain ⟨inp, hinp⟩ := isOk_exists (inputEntryVal_isOk kv.2 h.1)
    cases kv with
    | mk k v => exact exbind_isOk hinp (ih h.2 (ainsert acc k inp))

/-- A well-shaped output entry converts. -/
theorem outputOf_isOk (v : Yaml) (h : goodOutputEntry v = true) :
    (outputOf v).isOk = true := by
  cases v with
  | map fields =>
    obtain ⟨fmt, hfv⟩ := isOk_exists (fmtField_isOk _ (by simpa [goodOutputEntry] using h))
    exact exmap_isOk hfv
  | null => rfl
  | bool b => rfl
  | int n => rfl
  | str s => rfl
  | list items => rfl

/-- A string-or-absent metadata entry passes pydantic str validation, with
    the given default standing in when absent. -/
theorem strField_getD_isOk (o : Option Yaml) (dflt : Str) (h : strOrAbsent o = true) :
    (strField (o.getD (.str dflt))).isOk = true := by
  rcases o with _ | v
  · rfl
  · cases v <;> simp_all [strOrAbsent, strField, Option.getD, Except.isOk, Except.toBool]

/-- The metadata pipeline succeeds on any mapping whose entries are well
    shaped. -/
theorem parse_meta_isOk (sl : SafeLoad) (fm fallback : Str) (entries : List (Str × Yaml))
    (hload : loadMeta sl fm = Except.ok (.map entries))
    (hgood : goodMetaMap entries = true) :
    (parse_meta sl fm fallback).isOk = true := by
  simp only [goodMetaMap, Bool.and_eq_true] at hgood
  obtain ⟨⟨⟨hin, hout⟩, hnm⟩, hds⟩ := hgood
  unfold parse_meta
  rw [hload]
  refine exbind_isOk rfl ?_
  have hraw : ∃ items : List (Str × Yaml),
      (alookup entries (S ("inputs"))).getD (.map []) = .map items ∧
      items.all (fun kv => goodInputEntry kv.2) = true := by
    rcases halk : alookup entries (S ("inputs")) with _ | vin
    · exact ⟨[], rfl, rfl⟩
    · rw [halk] at hin
      cases vin with
      | map items => exact ⟨items, rfl, hin⟩
      | null => exact absurd hin (by simp)
      | bool b => exact absurd hin (by simp)
      | int n => exact absurd hin (by simp)
      | str s => exact absurd hin (by simp)
      | list l => exact absurd hin (by simp)
  obtain ⟨items, hitems, hgoodItems⟩ := hraw
  refine exbind_isOk (show metaGet (.map entries) (S ("inputs")) (.map []) =
    Except.ok (.map items) from by simp [metaGet, hitems]) ?_
  refine exbind_isOk (show yamlItems (.map items) = Except.ok items from rfl) ?_
  obtain ⟨inputs, hinputs⟩ := isOk_exists (buildInputsGo_isOk items hgoodItems [])
  refine exbind_isOk hinputs ?_
  refine exbind_isOk (show metaGet (.map entries) (S ("output")) (.map []) =
    Except.ok ((alookup entries (S ("output"))).getD (.map [])) from rfl) ?_
  have hgo : goodOutputEntry ((alookup entries (S ("output"))).getD (.map [])) = true := by
    rcases halk : alookup entries (S ("output")) with _ | vout
    · rfl
    · rw [halk] at hout; exact hout
  obtain ⟨output, houtput⟩ := isOk_exists (outputOf_isOk _ hgo)
  refine exbind_isOk houtput ?_
  refine exbind_isOk (show metaGet (.map entries) (S ("name")) (.str fallback) =
    Except.ok ((alookup entries (S ("name"))).getD (.str fallback)) from rfl) ?_
  obtain ⟨skillName, hskillName⟩ := isOk_exists (strField_getD_isOk _ fallback hnm)
  refine exbind_isOk hskillName ?_
  refine exbind_isOk (show metaGet (.map entries) (S ("description")) (.str []) =
    Except.ok ((alookup entries (S ("description"))).getD (.str [])) from rfl) ?_
  obtain ⟨skillDesc, hskillDesc⟩ := isOk_exists (strField_getD_isOk _ [] hds)
  exact exmap_isOk hskillDesc

/-- C1 counterexample: a content whose metadata block is the bare scalar
    hello (a YAML document that loads as a string, not a key/value mapping)
    makes parse_skill raise the AttributeError that meta.get produces on a
    non-mapping, instead of degrading to defaults as the claim states. -/
theorem parse_skill_raises_counterexample :
    parse_skill demoSafeLoad (S ("---\nhello\n---\nbody")) (S ("unknown")) =
      Except.error .attributeError := by
  decide

/-- C1, amended: parse_skill returns a Skill whenever the metadata block is
    absent or empty, or the YAML collaborator returns a falsy value, or it
    returns a key/value mapping whose name, description, inputs, and output
    entries have the documented shapes; metadata that loads as a truthy
    non-mapping value (or malformed YAML, or ill-typed entries) raises an
    error rather than yielding defaults. -/
theorem parse_skill_totality (sl : SafeLoad) (content name : Str)
    (hok : metaOkB sl content = true) : (parse_skill sl content name).isOk = true := by
  suffices hs : (parse_meta sl (fmSplit content).1 name).isOk = true by
    unfold parse_skill
    rcases hp : parse_meta sl (fmSplit content).1 name with e | m
    · rw [hp] at hs
      exact absurd hs (by simp [Except.isOk, Except.toBool])
    · simp [Except.isOk, Except.toBool]
  unfold metaOkB at hok
  by_cases hfm : (fmSplit content).1.isEmpty = true
  · have hload : loadMeta sl (fmSplit content).1 = Except.ok (.map []) := by
      simp [loadMeta, hfm]
    exact parse_meta_isOk sl (fmSplit content).1 name [] hload rfl
  · rw [Bool.or_eq_true] at hok
    rcases hok with h1 | h2
    · exact absurd h1 hfm
    · rcases hsl : sl (fmSplit content).1 with e | v
      · rw [hsl] at h2
        exact Bool.noConfusion h2
      · rw [hsl] at h2
        by_cases htr : yamlTruthy v = true
        · rw [Bool.or_eq_true] at h2
          rcases h2 with h3 | h4
          · rw [htr] at h3
            exact Bool.noConfusion h3
          · cases v with
            | map entries =>
              have hload : loadMeta sl (fmSplit content).1 = Except.ok (.map entries) := by
                simp [loadMeta, hfm, hsl, htr]
              exact parse_meta_isOk sl (fmSplit content).1 name entries hload h4
            | null => simp at h4
            | bool b => simp at h4
            | int n => simp at h4
            | str s => simp at h4
            | list l => simp at h4
        · have hload : loadMeta sl (fmSplit content).1 = Except.ok (.map []) := by
            simp [loadMeta, hfm, hsl, htr]
          exact parse_meta_isOk sl (fmSplit content).1 name [] hload rfl

/-- Closed witness for the C1 theorem at a content whose metadata is a
    well-shaped mapping declaring a name. -/
theorem parse_skill_totality_witness :
    metaOkB demoSafeLoad (S ("---\nname: greet\n---\nhi")) = true ∧
    (parse_skill demoSafeLoad (S ("---\nname: greet\n---\nhi")) (S ("n"))).isOk = true :=
  ⟨by decide,
    parse_skill_totality demoSafeLoad (S ("---\nname: greet\n---\nhi")) (S ("n"))
      (by decide)⟩

/-- When no candidate path exists, the lookup loop reports Not-Found with
    the full checked list. -/
theorem loadGo_none (fs : FS) (sl : SafeLoad) (name : Str) (allP : List FPath) :
    ∀ l : List FPath, (∀ p ∈ l, fs.pathExists p = false) →
      loadGo fs sl name allP l = Except.error (.notFound name allP) := by
  intro l
  induction l with
  | nil => intro _; rfl
  | cons p rest ih =>
    intro h
    have hp := h p (List.mem_cons_self p rest)
    simp only [loadGo, hp]
    simp only [Bool.false_eq_true, if_false]
    exact ih (fun q hq => h q (List.mem_cons_of_mem p hq))

/-- The lookup loop returns the parse of the first existing path. -/
theorem loadGo_first (fs : FS) (sl : SafeLoad) (name : Str) (allP : List FPath) :
    ∀ (l : List FPath) (i : Nat) (hi : i < l.length),
      fs.pathExists (l.get ⟨i, hi⟩) = true →
      (∀ j (hj : j < i), fs.pathExists (l.get ⟨j, lt_trans hj hi⟩) = false) →
      loadGo fs sl name allP l = parse_skill sl (fs.readText (l.get ⟨i, hi⟩)) name := by
  intro l
  induction l with
  | nil =>
    intro i hi
    exact absurd hi (by simp)
  | cons p rest ih =>
    intro i hi hex hbefore
    cases i with
    | zero =>
      simp only [List.get] at hex
      simp only [List.get]
      simp [loadGo, hex]
    | succ i2 =>
      have h0 : fs.pathExists p = false := by
        have := hbefore 0 (Nat.succ_pos i2)
        simpa using this
      simp only [loadGo, h0]
      simp only [Bool.false_eq_true, if_false]
      have hi2 : i2 < rest.length := by
        simpa [Nat.succ_lt_succ_iff] using hi
      have hex2 : fs.pathExists (rest.get ⟨i2, hi2⟩) = true := by
        simpa using hex
      have hb2 : ∀ j (hj : j < i2), fs.pathExists (rest.get ⟨j, lt_trans hj hi2⟩) = false := by
        intro j hj
        have := hbefore (j + 1) (Nat.succ_lt_succ hj)
        simpa using this
      simpa using ih i2 hi2 hex2 hb2

/-- C5: load_skill checks the candidate paths in strict priority order
    (the project-local subdirectory first, the user-global one second, then
    each extra path's name subdirectory with the fixed document filename,
    then each extra path's flat name.md file, as laid out by
    paths_to_check): it returns the parse of the first existing path's
    content, and when none exists it fails with a Not-Found condition
    carrying the full ordered list of checked paths. -/
theorem load_skill_first_match (fs : FS) (sl : SafeLoad) (name : Str)
    (sp : Option (List FPath)) :
    ((∀ p ∈ paths_to_check fs name (sp.getD []), fs.pathExists p = false) →
      load_skill fs sl name sp =
        Except.error (.notFound name (paths_to_check fs name (sp.getD [])))) ∧
    (∀ i (hi : i < (paths_to_check fs name (sp.getD [])).length),
      fs.pathExists ((paths_to_check fs name (sp.getD [])).get ⟨i, hi⟩) = true →
      (∀ j (hj : j < i),
        fs.pathExists ((paths_to_check fs name (sp.getD [])).get ⟨j, lt_trans hj hi⟩) = false) →
      load_skill fs sl name sp =
        parse_skill sl
          (fs.readText ((paths_to_check fs name (sp.getD [])).get ⟨i, hi⟩)) name) := by
  constructor
  · intro h
    exact loadGo_none fs sl name (paths_to_check fs name (sp.getD []))
      (paths_to_check fs name (sp.getD [])) h
  · intro i hi hex hbefore
    exact loadGo_first fs sl name (paths_to_check fs name (sp.getD []))
      (paths_to_check fs name (sp.getD [])) i hi hex hbefore

/-- Closed witness for the C5 theorem on a filesystem with no documents:
    the Not-Found condition carries the whole checked list. -/
theorem load_skill_first_match_witness :
    load_skill emptyFS demoSafeLoad (S ("x")) none =
      Except.error (.notFound (S ("x")) (paths_to_check emptyFS (S ("x")) [])) :=
  (load_skill_first_match emptyFS demoSafeLoad (S ("x")) none).1 (by decide)

/-- C8: the stdin single-input shortcut binds stdin to the skill's sole
    declared input exactly when stdin is non-empty, the provided mapping is
    empty, and the skill declares exactly one input (the spec-side condition
    stdinShortcutFires); in every other case the provided mapping reaches
    resolution unchanged. -/
theorem run_stdin_shortcut (skill : Skill) (inputs : Option Dict) (stdin : Option Str) :
    (stdinShortcutFires skill inputs stdin = true →
      ∃ k d s, skill.inputs = [(k, d)] ∧ stdin = some s ∧ s ≠ [] ∧
        inputs.getD [] = [] ∧ runEffectiveProvided skill inputs stdin = [(k, s)]) ∧
    (stdinShortcutFires skill inputs stdin = false →
      runEffectiveProvided skill inputs stdin = inputs.getD []) := by
  constructor
  · intro hfire
    simp only [stdinShortcutFires, Bool.and_eq_true, beq_iff_eq] at hfire
    obtain ⟨⟨hstdin, hlen⟩, hprov⟩ := hfire
    rcases stdin with _ | s
    · exact Bool.noConfusion hstdin
    · have hs : s.isEmpty = false := by simpa using hstdin
      obtain ⟨k, d, hkd⟩ : ∃ k d, skill.inputs = [(k, d)] := by
        rcases hsk : skill.inputs with _ | ⟨⟨k, d⟩, rest⟩
        · rw [hsk] at hlen
          simp at hlen
        · rw [hsk] at hlen
          simp only [List.length_cons] at hlen
          have hr : rest = [] := List.length_eq_zero.mp (by omega)
          subst hr
          exact ⟨k, d, rfl⟩
      have hpl : inputs.getD [] = [] := by
        rcases inputs with _ | l
        · rfl
        · simpa [List.isEmpty_iff] using hprov
      refine ⟨k, d, s, hkd, rfl, ?_, hpl, ?_⟩
      · intro hnil
        rw [hnil] at hs
        exact Bool.noConfusion hs
      · rcases inputs with _ | l
        · simp [runEffectiveProvided, hs, hkd, ainsert]
        · have hl : l = [] := by simpa using hpl
          subst hl
          simp [runEffectiveProvided, hs, hkd, ainsert]
  · intro hoff
    rcases stdin with _ | s
    · rcases inputs with _ | l <;> rfl
    · rcases inputs with _ | l
      · by_cases hs : s.isEmpty = true
        · simp [runEffectiveProvided, hs]
        · have hlen : skill.inputs.length ≠ 1 := by
            intro hl1
            rw [stdinShortcutFires] at hoff
            simp [hs, hl1] at hoff
          simp [runEffectiveProvided, hlen]
      · by_cases hl : l.isEmpty = true
        · have hl2 : l = [] := by simpa [List.isEmpty_iff] using hl
          subst hl2
          by_cases hs : s.isEmpty = true
          · simp [runEffectiveProvided, hs]
          · have hlen : skill.inputs.length ≠ 1 := by
              intro hl1
              rw [stdinShortcutFires] at hoff
              simp [hs, hl1] at hoff
            simp [runEffectiveProvided, hlen]
        · simp [runEffectiveProvided, hl]

/-- Closed witness for the C8 theorem: with non-empty stdin, no provided
    inputs, and the one-input skill, the shortcut binds the sole input. -/
theorem run_stdin_shortcut_witness :
    ∃ k d s, oneReqSkill.inputs = [(k, d)] ∧ (some (S ("hi")) : Option Str) = some s ∧
      s ≠ [] ∧ (none : Option Dict).getD [] = [] ∧
      runEffectiveProvided oneReqSkill none (some (S ("hi"))) = [(k, s)] :=
  (run_stdin_shortcut oneReqSkill none (some (S ("hi")))).1 (by decide)

/-- C10: run never mutates the mapping the caller passes as inputs. In the
    heap model of run's provided-dict aliasing, the caller's dict is aliased
    only when non-empty, in which case the shortcut (run's sole mutation
    site) cannot fire, and when the shortcut fires it writes to the fresh
    dict; so the caller's dict after the stdin block equals the dict passed
    in, while the dict run goes on to resolve (which resolve_inputs and
    render_prompt only read) is exactly runEffectiveProvided. -/
theorem run_never_mutates_caller_inputs (skill : Skill) (l : Dict) (stdin : Option Str) :
    (runStdinHeap skill (some l) stdin).callerDict = l ∧
    readRef (runStdinHeap skill (some l) stdin) (runProvidedRef (some l)).1 =
      runEffectiveProvided skill (some l) stdin := by
  by_cases hl : l.isEmpty = true
  · have hl2 : l = [] := by simpa [List.isEmpty_iff] using hl
    subst hl2
    rcases stdin with _ | s
    · exact ⟨rfl, rfl⟩
    · by_cases hs : s.isEmpty = true
      · constructor <;>
          simp [runStdinHeap, runProvidedRef, readRef, writeRef, runEffectiveProvided, hs]
      · by_cases hlen : skill.inputs.length = 1
        · rcases hsk : skill.inputs with _ | ⟨⟨k, d⟩, rest⟩
          · rw [hsk] at hlen
            simp at hlen
          · rw [hsk] at hlen
            simp only [List.length_cons] at hlen
            have hr : rest = [] := List.length_eq_zero.mp (by omega)
            subst hr
            constructor <;>
              simp [runStdinHeap, runProvidedRef, readRef, writeRef, runEffectiveProvided,
                hs, hsk]
        · constructor <;>
            simp [runStdinHeap, runProvidedRef, readRef, writeRef, runEffectiveProvided,
              hs, hlen]
  · rcases stdin with _ | s
    · constructor <;>
        simp [runStdinHeap, runProvidedRef, readRef, writeRef, runEffectiveProvided, hl]
    · constructor <;>
        simp [runStdinHeap, runProvidedRef, readRef, writeRef, runEffectiveProvided, hl]

/-- Membership in the keys of a dict after assignment: the assigned key and
    the old keys. -/
theorem dkeys_ainsert {β : Type} (l : List (Str × β)) (k0 : Str) (v : β) (k : Str) :
    (k ∈ dkeys (ainsert l k0 v)) ↔ (k = k0 ∨ k ∈ dkeys l) := by
  induction l with
  | nil => simp [ainsert, dkeys]
  | cons kv rest ih =>
    cases kv with
    | mk k1 v1 =>
      by_cases h : k1 = k0
      · subst h
        have hred : ainsert ((k1, v1) :: rest) k1 v = (k1, v) :: rest := by
          simp [ainsert]
        rw [hred]
        simp only [dkeys, List.map_cons, List.mem_cons]
        tauto
      · simp only [ainsert, if_neg h, dkeys, List.map_cons, List.mem_cons]
        rw [show (dkeys (ainsert rest k0 v) = (ainsert rest k0 v).map Prod.fst) from rfl] at ih
        rw [show (dkeys rest = rest.map Prod.fst) from rfl] at ih
        rw [ih]
        tauto

/-- The keys of the resolve loop's successful result: the keys already
    resolved plus every remaining declared input that is provided or has a
    truthy auto-gather command. -/
theorem resolveGo_keys (g : Gather) (provided : Dict) :
    ∀ (l : List (Str × SkillInput)) (resolved r : Dict),
      resolveGo g provided l resolved = Except.ok r →
      ∀ k, (k ∈ dkeys r) ↔ (k ∈ dkeys resolved ∨
        ∃ d, (k, d) ∈ l ∧
          ((alookup provided k).isSome = true ∨ (effCommand d).isSome = true)) := by
  intro l
  induction l with
  | nil =>
    intro resolved r h k
    have hr : resolved = r := by
      simpa [resolveGo] using h
    subst hr
    simp
  | cons nd rest ih =>
    intro resolved r h k
    obtain ⟨r1, hstep, hrest⟩ := exbind_ok h
    have hiff := ih r1 r hrest k
    cases nd with
    | mk nm d0 =>
      rcases hlook : alookup provided nm with _ | v
      · rcases hcmd : effCommand d0 with _ | c
        · by_cases hreq : d0.required = true
          · simp [resolveStep, hlook, hcmd, hreq] at hstep
          · have hr1 : r1 = resolved := by
              have := hstep
              simp [resolveStep, hlook, hcmd, hreq] at this
              exact this.symm
            subst hr1
            rw [hiff]
            constructor
            · rintro (hk | ⟨d, hd, hc⟩)
              · exact Or.inl hk
              · exact Or.inr ⟨d, List.mem_cons_of_mem _ hd, hc⟩
            · rintro (hk | ⟨d, hd, hc⟩)
              · exact Or.inl hk
              · rcases List.mem_cons.mp hd with heq | hmem
                · have hk1 : k = nm := congrArg Prod.fst heq
                  have hd1 : d = d0 := congrArg Prod.snd heq
                  subst hk1
                  subst hd1
                  rcases hc with hc1 | hc2
                  · rw [hlook] at hc1
                    exact absurd hc1 (by simp)
                  · rw [hcmd] at hc2
                    exact absurd hc2 (by simp)
                · exact Or.inr ⟨d, hmem, hc⟩
        · have hg : ∃ out, r1 = ainsert resolved nm out := by
            rcases hgi : gather_input g c with e | out
            · simp [resolveStep, hlook, hcmd, hgi, Except.map] at hstep
            · have := hstep
              simp [resolveStep, hlook, hcmd, hgi, Except.map] at this
              exact ⟨out, this.symm⟩
          obtain ⟨out, hr1⟩ := hg
          subst hr1
          rw [hiff, dkeys_ainsert]
          constructor
          · rintro ((hknm | hk) | ⟨d, hd, hc⟩)
            · subst hknm
              exact Or.inr ⟨d0, List.mem_cons_self _ _, Or.inr (by rw [hcmd]; rfl)⟩
            · exact Or.inl hk
            · exact Or.inr ⟨d, List.mem_cons_of_mem _ hd, hc⟩
          · rintro (hk | ⟨d, hd, hc⟩)
            · exact Or.inl (Or.inr hk)
            · rcases List.mem_cons.mp hd with heq | hmem
              · have hk1 : k = nm := congrArg Prod.fst heq
                exact Or.inl (Or.inl hk1)
              · exact Or.inr ⟨d, hmem, hc⟩
      · have hr1 : r1 = ainsert resolved nm v := by
          have := hstep
          simp [resolveStep, hlook] at this
          exact this.symm
        subst hr1
        rw [hiff, dkeys_ainsert]
        constructor
        · rintro ((hknm | hk) | ⟨d, hd, hc⟩)
          · subst hknm
            exact Or.inr ⟨d0, List.mem_cons_self _ _, Or.inl (by rw [hlook]; rfl)⟩
          · exact Or.inl hk
          · exact Or.inr ⟨d, List.mem_cons_of_mem _ hd, hc⟩
        · rintro (hk | ⟨d, hd, hc⟩)
          · exact Or.inl (Or.inr hk)
          · rcases List.mem_cons.mp hd with heq | hmem
            · have hk1 : k = nm := congrArg Prod.fst heq
              exact Or.inl (Or.inl hk1)
            · exact Or.inr ⟨d, hmem, hc⟩

/-- C9: the domain of a successful resolve_inputs result is exactly the set
    of declared inputs that obtained a value - those present in provided or
    carrying a truthy auto-gather command. A declared optional input with
    neither is omitted (no default synthesized), and a provided name the
    skill does not declare never appears. -/
theorem resolve_domain_exact (g : Gather) (skill : Skill) (provided r : Dict)
    (h : resolve_inputs g skill provided = Except.ok r) :
    ∀ k, (k ∈ dkeys r) ↔
      ∃ d, (k, d) ∈ skill.inputs ∧
        ((alookup provided k).isSome = true ∨ (effCommand d).isSome = true) := by
  intro k
  have hres := resolveGo_keys g provided skill.inputs [] r h k
  simpa [dkeys] using hres

/-- Closed witness for the C9 theorem: with the optional input a absent and
    the required input b provided (along with an undeclared name x), the
    result's keys satisfy the domain characterization; evaluated at b. -/
theorem resolve_domain_exact_witness :
    (S ("b") ∈ dkeys [(S ("b"), S ("vb"))]) ↔
      ∃ d, (S ("b"), d) ∈ twoInputSkill.inputs ∧
        ((alookup [(S ("b"), S ("vb")), (S ("x"), S ("vx"))] (S ("b"))).isSome = true ∨
          (effCommand d).isSome = true) :=
  resolve_domain_exact demoGather twoInputSkill
    [(S ("b"), S ("vb")), (S ("x"), S ("vx"))] [(S ("b"), S ("vb"))]
    (by decide) (S ("b"))

/-- Processing concatenated candidate lists is processing the first list
    and then the second from the reached state. -/
theorem candGo_append (fs : FS) (sl : SafeLoad) :
    ∀ (l1 l2 : List (FPath × Str)) (seen : List Str) (acc : List SkillSummary),
      candGo fs sl (l1 ++ l2) seen acc =
        candGo fs sl l2 (candGo fs sl l1 seen acc).1 (candGo fs sl l1 seen acc).2 := by
  intro l1
  induction l1 with
  | nil => intro l2 seen acc; rfl
  | cons c rest ih =>
    intro l2 seen acc
    cases c with
    | mk b d =>
      by_cases hseen : d ∈ seen
      · simp only [List.cons_append, candGo, if_pos hseen]
        exact ih l2 seen acc
      · simp only [List.cons_append, candGo, if_neg hseen]
        cases parse_skill sl (fs.readText (b ++ [d, skillMdSeg])) d with
        | ok sk => exact ih l2 (d :: seen) (acc ++ [summaryOf sk (b ++ [d, skillMdSeg])])
        | error e => exact ih l2 (d :: seen) acc

/-- The inner directory loop equals candidate processing of the filtered,
    base-tagged directory entries. -/
theorem listGoDirs_eq_candGo (fs : FS) (sl : SafeLoad) (base : FPath) :
    ∀ (dirs : List Str) (seen : List Str) (acc : List SkillSummary),
      listGoDirs fs sl base dirs seen acc =
        candGo fs sl
          ((dirs.filter (fun d => fs.isDir (base ++ [d]) &&
              fs.pathExists (base ++ [d, skillMdSeg]))).map (fun d => (base, d)))
          seen acc := by
  intro dirs
  induction dirs with
  | nil => intro seen acc; rfl
  | cons d rest ih =>
    intro seen acc
    by_cases hdir : fs.isDir (base ++ [d]) = true
    · by_cases hex : fs.pathExists (base ++ [d, skillMdSeg]) = true
      · have hfc : List.filter (fun e => fs.isDir (base ++ [e]) &&
            fs.pathExists (base ++ [e, skillMdSeg])) (d :: rest) =
            d :: List.filter (fun e => fs.isDir (base ++ [e]) &&
              fs.pathExists (base ++ [e, skillMdSeg])) rest := by
          simp [List.filter_cons, hdir, hex]
        rw [hfc, List.map_cons]
        by_cases hseen : d ∈ seen
        · have h1 : listGoDirs fs sl base (d :: rest) seen acc =
              listGoDirs fs sl base rest seen acc := by
            simp [listGoDirs, hdir, hex, hseen]
          have h2 : ∀ cs, candGo fs sl ((base, d) :: cs) seen acc = candGo fs sl cs seen acc := by
            intro cs
            simp [candGo, hseen]
          rw [h1, h2]
          exact ih seen acc
        · have h1 : listGoDirs fs sl base (d :: rest) seen acc =
              (match parse_skill sl (fs.readText (base ++ [d, skillMdSeg])) d with
               | .ok sk => listGoDirs fs sl base rest (d :: seen)
                   (acc ++ [summaryOf sk (base ++ [d, skillMdSeg])])
               | .error _ => listGoDirs fs sl base rest (d :: seen) acc) := by
            simp [listGoDirs, hdir, hex, hseen]
          have h2 : ∀ cs, candGo fs sl ((base, d) :: cs) seen acc =
              (match parse_skill sl (fs.readText (base ++ [d, skillMdSeg])) d with
               | .ok sk => candGo fs sl cs (d :: seen)
                   (acc ++ [summaryOf sk (base ++ [d, skillMdSeg])])
               | .error _ => candGo fs sl cs (d :: seen) acc) := by
            intro cs
            simp [candGo, hseen]
          rw [h1, h2]
          cases parse_skill sl (fs.readText (base ++ [d, skillMdSeg])) d with
          | ok sk => exact ih (d :: seen) (acc ++ [summaryOf sk (base ++ [d, skillMdSeg])])
          | error e => exact ih (d :: seen) acc
      · have hfc : List.filter (fun e => fs.isDir (base ++ [e]) &&
            fs.pathExists (base ++ [e, skillMdSeg])) (d :: rest) =
            List.filter (fun e => fs.isDir (base ++ [e]) &&
              fs.pathExists (base ++ [e, skillMdSeg])) rest := by
          simp [List.filter_cons, hdir, hex]
        have h1 : listGoDirs fs sl base (d :: rest) seen acc =
            listGoDirs fs sl base rest seen acc := by
          simp [listGoDirs, hdir, hex]
        rw [hfc, h1]
        exact ih seen acc
    · have hfc : List.filter (fun e => fs.isDir (base ++ [e]) &&
          fs.pathExists (base ++ [e, skillMdSeg])) (d :: rest) =
          List.filter (fun e => fs.isDir (base ++ [e]) &&
            fs.pathExists (base ++ [e, skillMdSeg])) rest := by
        simp [List.filter_cons, hdir]
      have h1 : listGoDirs fs sl base (d :: rest) seen acc =
          listGoDirs fs sl base rest seen acc := by
        simp [listGoDirs, hdir]
      rw [hfc, h1]
      exact ih seen acc

/-- The outer roots loop equals candidate processing of all roots'
    candidates in enumeration order. -/
theorem listGoRoots_eq_candGo (fs : FS) (sl : SafeLoad) :
    ∀ (roots : List FPath) (seen : List Str) (acc : List SkillSummary),
      listGoRoots fs sl roots seen acc =
        (candGo fs sl (rootCandidates fs roots) seen acc).2 := by
  intro roots
  induction roots with
  | nil => intro seen acc; rfl
  | cons b rest ih =>
    intro seen acc
    by_cases hb : fs.pathExists b = true
    · have h1 : listGoRoots fs sl (b :: rest) seen acc =
          listGoRoots fs sl rest
            (listGoDirs fs sl b (fs.iterdir b) seen acc).1
            (listGoDirs fs sl b (fs.iterdir b) seen acc).2 := by
        simp [listGoRoots, hb]
      have h2 : rootCandidates fs (b :: rest) =
          dirCandidates fs b ++ rootCandidates fs rest := by
        simp [rootCandidates, hb]
      rw [h1, h2, candGo_append]
      rw [listGoDirs_eq_candGo fs sl b (fs.iterdir b) seen acc]
      rw [ih]
      rfl
    · have h1 : listGoRoots fs sl (b :: rest) seen acc = listGoRoots fs sl rest seen acc := by
        simp [listGoRoots, hb]
      have h2 : rootCandidates fs (b :: rest) = rootCandidates fs rest := by
        simp [rootCandidates, hb]
      rw [h1, h2]
      exact ih seen acc

/-- The subdirectory name recorded in a summary's source path. -/
theorem sumDir_summaryOf (sk : Skill) (b : FPath) (d f : Str) :
    sumDir (summaryOf sk (b ++ [d, f])) = d := by
  simp [sumDir, summaryOf, List.reverse_append]

/-- Once a subdirectory name is in the seen set, candidate processing adds
    no further summary scanned from it. -/
theorem candGo_filter_seen (fs : FS) (sl : SafeLoad) (x : Str) :
    ∀ (cs : List (FPath × Str)) (seen : List Str) (acc : List SkillSummary),
      x ∈ seen →
      (candGo fs sl cs seen acc).2.filter (fun s => sumDir s = x) =
        acc.filter (fun s => sumDir s = x) := by
  intro cs
  induction cs with
  | nil => intro seen acc _; rfl
  | cons c rest ih =>
    intro seen acc hx
    cases c with
    | mk b d =>
      by_cases hseen : d ∈ seen
      · have h1 : candGo fs sl ((b, d) :: rest) seen acc = candGo fs sl rest seen acc := by
          simp [candGo, hseen]
        rw [h1]
        exact ih seen acc hx
      · have hdx : d ≠ x := fun hdx => hseen (hdx ▸ hx)
        have hx2 : x ∈ d :: seen := List.mem_cons_of_mem d hx
        cases hps : parse_skill sl (fs.readText (b ++ [d, skillMdSeg])) d with
        | ok sk =>
          have h1 : candGo fs sl ((b, d) :: rest) seen acc =
              candGo fs sl rest (d :: seen)
                (acc ++ [summaryOf sk (b ++ [d, skillMdSeg])]) := by
            simp [candGo, hseen, hps]
          rw [h1, ih (d :: seen) _ hx2, List.filter_append]
          have h2 : [summaryOf sk (b ++ [d, skillMdSeg])].filter
              (fun s => sumDir s = x) = [] := by
            simp [List.filter_cons, sumDir_summaryOf, hdx]
          rw [h2, List.append_nil]
        | error e =>
          have h1 : candGo fs sl ((b, d) :: rest) seen acc =
              candGo fs sl rest (d :: seen) acc := by
            simp [candGo, hseen, hps]
          rw [h1]
          exact ih (d :: seen) acc hx2

/-- Before a subdirectory name enters the seen set, the summaries scanned
    from it are decided entirely by its earliest candidate: the parse of
    that candidate's document when it succeeds, nothing when it fails. -/
theorem candGo_filter_first (fs : FS) (sl : SafeLoad) (x : Str) :
    ∀ (cs : List (FPath × Str)) (seen : List Str) (acc : List SkillSummary),
      x ∉ seen →
      (candGo fs sl cs seen acc).2.filter (fun s => sumDir s = x) =
        acc.filter (fun s => sumDir s = x) ++
        (match firstCandFor x cs with
         | none => []
         | some b =>
           match parse_skill sl (fs.readText (b ++ [x, skillMdSeg])) x with
           | .ok sk => [summaryOf sk (b ++ [x, skillMdSeg])]
           | .error _ => []) := by
  intro cs
  induction cs with
  | nil =>
    intro seen acc _
    simp [candGo, firstCandFor]
  | cons c rest ih =>
    intro seen acc hx
    cases c with
    | mk b d
    =>
    by_cases hdx : d = x
    · subst hdx
      have hfirst : firstCandFor d ((b, d) :: rest) = some b := by
        simp [firstCandFor]
      rw [hfirst]
      cases hps : parse_skill sl (fs.readText (b ++ [d, skillMdSeg])) d with
      | ok sk =>
        have h1 : candGo fs sl ((b, d) :: rest) seen acc =
            candGo fs sl rest (d :: seen)
              (acc ++ [summaryOf sk (b ++ [d, skillMdSeg])]) := by
          simp [candGo, hx, hps]
        rw [h1, candGo_filter_seen fs sl d rest (d :: seen) _ (List.mem_cons_self d seen)]
        rw [List.filter_append]
        have h2 : [summaryOf sk (b ++ [d, skillMdSeg])].filter
            (fun s => sumDir s = d) = [summaryOf sk (b ++ [d, skillMdSeg])] := by
          simp [List.filter_cons, sumDir_summaryOf]
        rw [h2]
        simp [hps]
      | error e =>
        have h1 : candGo fs sl ((b, d) :: rest) seen acc =
            candGo fs sl rest (d :: seen) acc := by
          simp [candGo, hx, hps]
        rw [h1, candGo_filter_seen fs sl d rest (d :: seen) acc (List.mem_cons_self d seen)]
        simp [hps]
    · have hfirst : firstCandFor x ((b, d) :: rest) = firstCandFor x rest := by
        simp [firstCandFor, hdx]
      rw [hfirst]
      by_cases hseen : d ∈ seen
      · have h1 : candGo fs sl ((b, d) :: rest) seen acc = candGo fs sl rest seen acc := by
          simp [candGo, hseen]
        rw [h1]
        exact ih seen acc hx
      · have hx2 : x ∉ d :: seen := by
          intro hmem
          rcases List.mem_cons.mp hmem with heq | hm
          · exact hdx heq.symm
          · exact hx hm
        cases hps : parse_skill sl (fs.readText (b ++ [d, skillMdSeg])) d with
        | ok sk =>
          have h1 : candGo fs sl ((b, d) :: rest) seen acc =
              candGo fs sl rest (d :: seen)
                (acc ++ [summaryOf sk (b ++ [d, skillMdSeg])]) := by
            simp [candGo, hseen, hps]
          rw [h1, ih (d :: seen) _ hx2, List.filter_append]
          have h2 : [summaryOf sk (b ++ [d, skillMdSeg])].filter
              (fun s => sumDir s = x) = [] := by
            simp [List.filter_cons, sumDir_summaryOf, hdx]
          rw [h2, List.append_nil]
        | error e =>
          have h1 : candGo fs sl ((b, d) :: rest) seen acc =
              candGo fs sl rest (d :: seen) acc := by
            simp [candGo, hseen, hps]
          rw [h1]
          exact ih (d :: seen) acc hx2

/-- A candidate carrying a name guarantees the name has an earliest
    candidate. -/
theorem firstCandFor_of_mem (x : Str) :
    ∀ (cs : List (FPath × Str)) (b0 : FPath), (b0, x) ∈ cs →
      ∃ b, firstCandFor x cs = some b := by
  intro cs
  induction cs with
  | nil =>
    intro b0 h
    cases h
  | cons c rest ih =>
    intro b0 h
    cases c with
    | mk b1 d =>
      by_cases hdx : d = x
      · subst hdx
        exact ⟨b1, by simp [firstCandFor]⟩
      · have hfirst : firstCandFor x ((b1, d) :: rest) = firstCandFor x rest := by
          simp [firstCandFor, hdx]
        rw [hfirst]
        rcases List.mem_cons.mp h with heq | hmem
        · exact absurd (congrArg Prod.snd heq).symm hdx
        · exact ih b0 hmem

/-- C7 counterexample: under cexFS the subdirectory x appears, with the
    fixed document filename present, under both the project-local root and
    the user-global root, yet list_skills returns no summary at all: the
    project-local document fails to parse, its name is already consumed by
    the seen set before the parse attempt, and the parsable user-global
    document is shadowed - the claim's exactly one summary is violated. -/
theorem list_skills_shadowing_counterexample :
    (projSkillsRoot, S ("x")) ∈ rootCandidates cexFS (allRoots cexFS []) ∧
    (homeSkillsRoot, S ("x")) ∈ rootCandidates cexFS (allRoots cexFS []) ∧
    projSkillsRoot ≠ homeSkillsRoot ∧
    list_skills cexFS demoSafeLoad none = [] := by
  refine ⟨by decide, by decide, by decide, by decide⟩

/-- C7, amended: when the same subdirectory name appears (as a candidate
    with the fixed document filename) under more than one scanned root,
    list_skills keeps at most one summary for it, decided entirely by the
    earliest-enumerated candidate: if that candidate's document parses, the
    one summary comes from it (first-seen-wins; later roots are shadowed),
    and if it fails to parse, no summary for that name is returned even
    when a later root's document would parse. -/
theorem list_skills_first_seen_dedup (fs : FS) (sl : SafeLoad)
    (sp : Option (List FPath)) (x : Str)
    (hmulti : ∃ b1 b2 : FPath, b1 ≠ b2 ∧
      (b1, x) ∈ rootCandidates fs (allRoots fs (sp.getD [])) ∧
      (b2, x) ∈ rootCandidates fs (allRoots fs (sp.getD []))) :
    ∃ b : FPath, firstCandFor x (rootCandidates fs (allRoots fs (sp.getD []))) = some b ∧
      (list_skills fs sl sp).filter (fun s => sumDir s = x) =
        (match parse_skill sl (fs.readText (b ++ [x, skillMdSeg])) x with
         | .ok sk => [summaryOf sk (b ++ [x, skillMdSeg])]
         | .error _ => []) := by
  obtain ⟨b1, b2, hne, h1, h2⟩ := hmulti
  obtain ⟨b, hb⟩ := firstCandFor_of_mem x (rootCandidates fs (allRoots fs (sp.getD []))) b1 h1
  refine ⟨b, hb, ?_⟩
  have hflat : list_skills fs sl sp =
      (candGo fs sl (rootCandidates fs (allRoots fs (sp.getD []))) [] []).2 := by
    unfold list_skills
    exact listGoRoots_eq_candGo fs sl (allRoots fs (sp.getD [])) [] []
  rw [hflat]
  have := candGo_filter_first fs sl x (rootCandidates fs (allRoots fs (sp.getD []))) [] []
    (by simp)
  rw [this, hb]
  simp

/-- Closed witness for the C7 theorem: under okFS the project-local x
    parses, so exactly its summary survives and the user-global copy is
    shadowed. -/
theorem list_skills_first_seen_dedup_witness :
    ∃ b : FPath, firstCandFor (S ("x")) (rootCandidates okFS (allRoots okFS [])) = some b ∧
      (list_skills okFS demoSafeLoad none).filter (fun s => sumDir s = S ("x")) =
        (match parse_skill demoSafeLoad (okFS.readText (b ++ [S ("x"), skillMdSeg]))
            (S ("x")) with
         | .ok sk => [summaryOf sk (b ++ [S ("x"), skillMdSeg])]
         | .error _ => []) :=
  list_skills_first_seen_dedup okFS demoSafeLoad none (S ("x"))
    ⟨projSkillsRoot, homeSkillsRoot, by decide, by decide, by decide⟩
